import Mathlib

/-!
Shallow embedding of the htsget index-resolution code: the CSI binning and
bin-filter functions (package csi), the CSI index decoder and BCF header
reference resolver (package bcf), and the chunks-request orchestrator
(package api), together with proofs checking the specification's claims.

Machine integers are modelled as Nat (unsigned) or Int (signed) with explicit
reduction modulo 2 ^ w wherever Go's fixed-width arithmetic can wrap; byte
streams are lists of byte values; fallible operations return Option or Except.
-/

/-- Go conversion of a signed value to int32: wrap modulo 2^32 into
[-2^31, 2^31). -/
def int32wrap (x : Int) : Int := (x + 2 ^ 31) % 2 ^ 32 - 2 ^ 31

/-- Go conversion of a signed (int32/int64) value to uint (64-bit): the value
modulo 2^64, as a Nat. -/
def uint64ofInt (x : Int) : Nat := (x % (2 ^ 64 : Int)).toNat

/-- Value of a little-endian byte list (least significant byte first). -/
def leVal : List Nat → Nat
  | [] => 0
  | b :: bs => b % 256 + 256 * leVal bs

/-- Little-endian encoding of a uint32 value as four bytes. -/
def u32le (n : Nat) : List Nat :=
  [n % 2 ^ 8, n / 2 ^ 8 % 2 ^ 8, n / 2 ^ 16 % 2 ^ 8, n / 2 ^ 24 % 2 ^ 8]

/-- Little-endian encoding of a uint64 value as eight bytes. -/
def u64le (n : Nat) : List Nat :=
  [n % 2 ^ 8, n / 2 ^ 8 % 2 ^ 8, n / 2 ^ 16 % 2 ^ 8, n / 2 ^ 24 % 2 ^ 8,
   n / 2 ^ 32 % 2 ^ 8, n / 2 ^ 40 % 2 ^ 8, n / 2 ^ 48 % 2 ^ 8, n / 2 ^ 56 % 2 ^ 8]

/-- Little-endian encoding of an int32 value (two's complement). -/
def i32le (x : Int) : List Nat := u32le (x % 2 ^ 32).toNat

/-- Read exactly n bytes from the stream, or fail (a truncated stream is EOF). -/
def readBytes (n : Nat) (s : List Nat) : Option (List Nat × List Nat) :=
  if n ≤ s.length then some (s.take n, s.drop n) else none

/-- Read a little-endian uint32 from the stream (binary.Read into a uint32). -/
def readU32 (s : List Nat) : Option (Nat × List Nat) :=
  match readBytes 4 s with
  | some (bs, rest) => some (leVal bs, rest)
  | none => none

/-- Read a little-endian uint64 from the stream (binary.Read into a uint64). -/
def readU64 (s : List Nat) : Option (Nat × List Nat) :=
  match readBytes 8 s with
  | some (bs, rest) => some (leVal bs, rest)
  | none => none

/-- Signed interpretation of a uint32 bit pattern as int32. -/
def toInt32 (u : Nat) : Int := if u < 2 ^ 31 then (u : Int) else (u : Int) - 2 ^ 32

/-- Read a little-endian int32 from the stream (binary.Read into an int32). -/
def readI32 (s : List Nat) : Option (Int × List Nat) :=
  match readU32 s with
  | some (u, rest) => some (toInt32 u, rest)
  | none => none

deriving instance DecidableEq for Except

namespace genomics

/-- Region from internal/genomics: referenceID is int32 (negative means all
references), Start and End are uint32 coordinates. -/
structure Region where
  ReferenceID : Int
  Start : Nat
  End : Nat
deriving DecidableEq

end genomics

namespace csi

/-- Maximum addressable coordinate, 1 << 29. -/
def maximumReadLength : Nat := 2 ^ 29

/-- Reserved virtual bin ID used for (unused) chunk metadata. -/
def MetadataBeanID : Nat := 37450

/-- RegionContainsBin from the csi package: indicates if the given region
contains the bin described by referenceID and binID. -/
def RegionContainsBin (region : genomics.Region) (referenceID : Int)
    (binID : Nat) (bins : List Nat) : Bool :=
  if 0 ≤ region.ReferenceID ∧ referenceID ≠ region.ReferenceID then false
  else if region.Start = 0 ∧ region.End = 0 then true
  else bins.any (fun id => id == binID)

/-- Go's 1 << s on uint (64-bit): zero once the shift reaches the width. -/
def goShl1 (s : Nat) : Nat := if s < 64 then 2 ^ s else 0

/-- Loop body of BinsForRange: one iteration per remaining level count.
State (l, t, s) are the Go uint loop variables (level, cumulative bin-id
base, shift); all uint arithmetic wraps modulo 2^64 and each emitted bin id
is truncated to uint16. Go's inner loop increments i as a uint; the
(unreachable for well-formed parameters) case e = 2^64 - 1, where the Go
loop would wrap around and not terminate, is modelled as emitting the ids
b..e once. -/
def binsLoop (start endv : Nat) : Nat → Nat → Nat → Nat → List Nat
  | 0, _, _, _ => []
  | n + 1, l, t, s =>
    let b := (t + (start >>> s)) % 2 ^ 64
    let e := (t + (endv >>> s)) % 2 ^ 64
    (if b ≤ e then (List.range (e - b + 1)).map (fun i => (b + i) % 2 ^ 16) else [])
      ++ binsLoop start endv n (l + 1) ((t + goShl1 ((l * 3) % 2 ^ 64)) % 2 ^ 64)
          ((s + (2 ^ 64 - 3)) % 2 ^ 64)

/-- Clamp of the end coordinate: Go reassigns end to maximumReadLength when
it is zero or exceeds the maximum. -/
def clampEnd (endv : Nat) : Nat :=
  if endv = 0 ∨ maximumReadLength < endv then maximumReadLength else endv

/-- BinsForRange from the csi package (identical in internal/common):
calculates the list of bins that may overlap with region [start, endv)
(zero-based). endv is the Go parameter named end. -/
def BinsForRange (start endv : Nat) (minShift depth : Int) : List Nat :=
  if clampEnd endv ≤ start then []
  else if maximumReadLength < start then []
  else
    binsLoop start (clampEnd endv - 1) (uint64ofInt depth + 1) 0 0
      (uint64ofInt (int32wrap (minShift + depth * 3)))

end csi

/-! Claim-side rendering of the Coordinate Binning contract (spec 4.1 and
claim C2): per level l in 0..depth, all bin ids in the inclusive range
[t_l + (start >> s_l), t_l + ((end-1) >> s_l)], where s_l = minShift +
(depth - l) * 3 and t_l is the cumulative base incremented by 8^l per
level. -/

/-- Cumulative bin-id base: t_0 = 0 and t_(l+1) = t_l + 8^l. -/
def cumBase : Nat → Nat
  | 0 => 0
  | l + 1 => cumBase l + 8 ^ l

/-- One level of the claimed bin list: the inclusive id range
[t_l + (start >> s_l), t_l + (e1 >> s_l)] where e1 is the clamped end minus
one and s_l = minS + 3 * (dT - l). -/
def claimLevel (start e1 minS dT l : Nat) : List Nat :=
  let s := minS + 3 * (dT - l)
  let b := cumBase l + (start >>> s)
  let e := cumBase l + (e1 >>> s)
  (List.range (e - b + 1)).map (fun i => b + i)

/-- The bin list exactly as claim C2 words it: clamp end to 2^29 when zero or
too large, empty when start >= end after clamping or start > 2^29, otherwise
the concatenation over levels 0..depth of the per-level inclusive id
ranges. -/
def claimBins (start endv : Nat) (minShift depth : Int) : List Nat :=
  if csi.clampEnd endv ≤ start then []
  else if csi.maximumReadLength < start then []
  else
    (List.range (depth.toNat + 1)).flatMap
      (fun l => claimLevel start (csi.clampEnd endv - 1) minShift.toNat depth.toNat l)

namespace bgzf

/-- Chunk from internal/bgzf: a byte range in the data file delimited by two
virtual offsets (uint64 values). -/
structure Chunk where
  Start : Nat
  End : Nat
deriving DecidableEq

/-- Modelled from the spec: bgzf.LastAddress, the maximal VirtualOffset (the
internal/bgzf package is not among the staged sources). The spec defines a
VirtualOffset as an unsigned 64-bit value and reserves the maximal value to
denote an unbounded end, so the maximal address is 2^64 - 1. -/
def LastAddress : Nat := 2 ^ 64 - 1

end bgzf

namespace bcf

/-- Magic bytes of a CSI index file: the string CSI followed by byte 1. -/
def csiMagic : List Nat := [67, 83, 73, 1]

/-- ExpectBytes on the CSI magic: read four bytes and compare them with the
magic, failing on EOF or mismatch. -/
def checkMagicE (s : List Nat) : Except String (List Nat) :=
  match readBytes 4 s with
  | none => .error "checking magic: EOF"
  | some (m, rest) => if m = csiMagic then .ok rest else .error "checking magic: wrong magic"

/-- Option-to-Except lift used for each binary.Read call of the decoder. -/
def need (msg : String) : Option α → Except String α
  | none => .error msg
  | some a => .ok a

/-- Model of io.CopyN(ioutil.Discard, gzr, int64(laux)): a non-positive count
copies nothing and reports no error (CopyN only reports EOF when it copied
fewer than the requested bytes, and 0 is not less than a negative count);
a positive count must be fully available. -/
def skipN (laux : Int) (s : List Nat) : Except String (List Nat) :=
  if laux ≤ 0 then .ok s
  else if laux.toNat ≤ s.length then .ok (s.drop laux.toNat)
  else .error "reading past auxiliary data: EOF"

/-- Innermost loop of bcf.Read, over one bin's chunk records: reads the given
number of chunk records; a chunk of the metadata bin is skipped entirely;
otherwise the chunk is appended to the accumulator when includeChunks holds
and chunk.End >= bin.Offset, and the header end is lowered to chunk.Start
when that is smaller. Returns the rest of the stream, the new header end and
the new accumulator. -/
def readChunks (binID binOffset : Nat) (inc : Bool) :
    Nat → List Nat → Nat → List bgzf.Chunk →
    Except String (List Nat × Nat × List bgzf.Chunk)
  | 0, s, hEnd, acc => .ok (s, hEnd, acc)
  | k + 1, s, hEnd, acc => do
    let (cStart, s) ← need "reading chunk: EOF" (readU64 s)
    let (cEnd, s) ← need "reading chunk: EOF" (readU64 s)
    if binID = csi.MetadataBeanID then
      readChunks binID binOffset inc k s hEnd acc
    else
      readChunks binID binOffset inc k s
        (if cStart < hEnd then cStart else hEnd)
        (if inc && decide (binOffset ≤ cEnd) then acc ++ [⟨cStart, cEnd⟩] else acc)

/-- Middle loop of bcf.Read, over one reference's bins: reads the given
number of bin records (id, offset, chunk count, then the chunk records),
deciding per bin whether its chunks are included via RegionContainsBin. -/
def readBins (region : genomics.Region) (bins : List Nat) (reference : Int) :
    Nat → List Nat → Nat → List bgzf.Chunk →
    Except String (List Nat × Nat × List bgzf.Chunk)
  | 0, s, hEnd, acc => .ok (s, hEnd, acc)
  | j + 1, s, hEnd, acc => do
    let (binID, s) ← need "reading bin header: EOF" (readU32 s)
    let (binOffset, s) ← need "reading bin header: EOF" (readU64 s)
    let (chunkCount, s) ← need "reading bin header: EOF" (readI32 s)
    let inc := csi.RegionContainsBin region reference binID bins
    let (s, hEnd, acc) ← readChunks binID binOffset inc chunkCount.toNat s hEnd acc
    readBins region bins reference j s hEnd acc

/-- Outer loop of bcf.Read, over the references: reads each reference's bin
count and bins, with the reference id counting up from the given value. -/
def readRefs (region : genomics.Region) (bins : List Nat) :
    Nat → Int → List Nat → Nat → List bgzf.Chunk →
    Except String (List Nat × Nat × List bgzf.Chunk)
  | 0, _, s, hEnd, acc => .ok (s, hEnd, acc)
  | r + 1, reference, s, hEnd, acc => do
    let (binCount, s) ← need "reading bin count: EOF" (readI32 s)
    let (s, hEnd, acc) ← readBins region bins reference binCount.toNat s hEnd acc
    readRefs region bins r (reference + 1) s hEnd acc

/-- bcf.Read: reads index data from a CSI stream (modelled after gzip
decompression) and returns the BGZF chunks covering the header and all
mapped reads inside the region; the first chunk is always the header chunk.
Counts read from the stream are int32 values, used as loop bounds exactly as
Go does: a negative count makes the loop run zero times, and a negative
auxiliary length skips nothing; neither is reported as an error. -/
def Read (csiFile : List Nat) (region : genomics.Region) :
    Except String (List bgzf.Chunk) := do
  let s ← checkMagicE csiFile
  let (minShift, s) ← need "reading min_shift: EOF" (readI32 s)
  let (depth, s) ← need "reading depth: EOF" (readI32 s)
  let bins := csi.BinsForRange region.Start region.End minShift depth
  let (laux, s) ← need "reading length of auxiliary data: EOF" (readI32 s)
  let s ← skipN laux s
  let (refCount, s) ← need "reading the number of reference sequences: EOF" (readI32 s)
  let (_, hEnd, acc) ← readRefs region bins refCount.toNat 0 s bgzf.LastAddress []
  return ⟨0, hEnd⟩ :: acc

/-- Bin record of a CSI index: id (uint32), offset (uint64) and the bin's
chunk records in file order. -/
structure Bin where
  ID : Nat
  Offset : Nat
  chunks : List bgzf.Chunk
deriving DecidableEq

/-- Structured CSI index: minShift and depth (int32), auxiliary bytes, and
per reference the list of bins. -/
structure Index where
  minShift : Int
  depth : Int
  aux : List Nat
  refs : List (List Bin)
deriving DecidableEq

/-- Serialization of one chunk record: start and end as little-endian
uint64. -/
def encodeChunk (c : bgzf.Chunk) : List Nat := u64le c.Start ++ u64le c.End

/-- Serialization of one bin record: id, offset, chunk count, then the chunk
records. -/
def encodeBin (b : Bin) : List Nat :=
  u32le b.ID ++ u64le b.Offset ++ i32le b.chunks.length ++ b.chunks.flatMap encodeChunk

/-- Serialization of one reference: bin count then the bin records. -/
def encodeRef (bins : List Bin) : List Nat :=
  i32le bins.length ++ bins.flatMap encodeBin

/-- Serialization of a structured index as a CSI byte stream: magic,
min_shift, depth, auxiliary length and bytes, reference count, then the
references. -/
def encodeIndex (idx : Index) : List Nat :=
  csiMagic ++ i32le idx.minShift ++ i32le idx.depth ++ i32le idx.aux.length ++ idx.aux
    ++ i32le idx.refs.length ++ idx.refs.flatMap encodeRef

/-- Field bounds of a well-formed chunk record: both offsets fit in 64
bits. -/
def WFChunk (c : bgzf.Chunk) : Prop := c.Start < 2 ^ 64 ∧ c.End < 2 ^ 64

/-- Field bounds of a well-formed bin record: the id fits in 32 bits, the
offset in 64 bits, the chunk count in an int32, and the chunks are
well-formed. -/
def WFBin (b : Bin) : Prop :=
  b.ID < 2 ^ 32 ∧ b.Offset < 2 ^ 64 ∧ b.chunks.length < 2 ^ 31 ∧ ∀ c ∈ b.chunks, WFChunk c

/-- Field bounds of a well-formed index: min_shift and depth are int32
values, the auxiliary data is a byte list whose length fits in an int32, the
reference count fits in an int32, and every bin is well-formed with a bin
count fitting in an int32. -/
def WFIndex (idx : Index) : Prop :=
  -2 ^ 31 ≤ idx.minShift ∧ idx.minShift < 2 ^ 31 ∧
  -2 ^ 31 ≤ idx.depth ∧ idx.depth < 2 ^ 31 ∧
  idx.aux.length < 2 ^ 31 ∧ (∀ b ∈ idx.aux, b < 256) ∧
  idx.refs.length < 2 ^ 31 ∧
  ∀ r ∈ idx.refs, r.length < 2 ^ 31 ∧ ∀ b ∈ r, WFBin b

/-! Reference resolver (bcf.GetReferenceID and its helpers). Strings are
modelled as lists of characters, matching Go's byte-indexed ASCII header
lines; the gzip layer, magic check and header-length framing are library
plumbing outside the scanned lines, so the resolver is embedded over the
list of scanned header lines. -/

/-- strings.Index: position of the first occurrence of pat in s, or none. -/
def strIndex (pat : List Char) : List Char → Option Nat
  | [] => if pat.isPrefixOf ([] : List Char) then some 0 else none
  | c :: t =>
    if pat.isPrefixOf (c :: t) then some 0
    else (strIndex pat t).map (· + 1)

/-- Character list of the ID= field marker. -/
def idEq : List Char := ['I', 'D', '=']

/-- Character list of the IDX= field marker. -/
def idxEq : List Char := ['I', 'D', 'X', '=']

/-- contigDefinesReference from package bcf: looks for ID= followed by the
reference name and then inspects the character immediately after the match,
which must be a comma or a closing angle bracket. The Go code indexes the
string at that position unconditionally; when the line ends right after the
match the access is out of bounds (a runtime panic), modelled as none. -/
def contigDefinesReference (contig refName : List Char) : Option Bool :=
  match strIndex (idEq ++ refName) contig with
  | none => some false
  | some index =>
    match contig.get? (index + idEq.length + refName.length) with
    | none => none
    | some nextChr => if nextChr ≠ ',' ∧ nextChr ≠ '>' then some false else some true

/-- Value of a digit list read in base 10. -/
def digitsToNat (cs : List Char) : Nat :=
  cs.foldl (fun acc c => acc * 10 + (c.toNat - 48)) 0

/-- strconv.Atoi: optional sign, then one or more decimal digits, with the
64-bit int range check (out-of-range input is an error in Go). -/
def Atoi (s : List Char) : Except String Int :=
  let signed : Int × List Char :=
    match s with
    | '+' :: rest => (1, rest)
    | '-' :: rest => (-1, rest)
    | rest => (1, rest)
  if signed.2 = [] ∨ signed.2.any (fun c => !c.isDigit) then .error "invalid syntax"
  else
    let v : Int := signed.1 * digitsToNat signed.2
    if v < -2 ^ 63 ∨ 2 ^ 63 - 1 < v then .error "value out of range" else .ok v

/-- getIdx from package bcf: find IDX=, collect the characters up to the next
comma, closing angle bracket or end of line, and parse them with Atoi; a
line without IDX= yields -1 with no error. -/
def getIdx (contig : List Char) : Except String Int :=
  match strIndex idxEq contig with
  | none => .ok (-1)
  | some index =>
    let buff := (contig.drop (index + idxEq.length)).takeWhile
      (fun c => decide (c ≠ ',' ∧ c ≠ '>'))
    match Atoi buff with
    | .ok v => .ok v
    | .error e => .error ("parsing IDX value: " ++ e)

/-- Outcome of GetReferenceID: a resolved id, a returned error, or a runtime
panic from the out-of-bounds access in contigDefinesReference. -/
inductive RefIDResult where
  | ok (id : Int)
  | err (msg : String)
  | panic
deriving DecidableEq

/-- Test for a contig declaration line (strings.HasPrefix(line, config
marker)). -/
def isContigLine (line : List Char) : Bool :=
  List.isPrefixOf ['#', '#', 'c', 'o', 'n', 't', 'i', 'g'] line

/-- Scanner loop of GetReferenceID over the header lines: id counts the
contig declarations seen so far, contigsFound records whether any contig
line has been seen; a non-contig line after the contig lines stops the scan
with a not-found error, and running out of lines is also an error. -/
def getRefIDLoop (referenceName : List Char) :
    List (List Char) → Int → Bool → RefIDResult
  | [], _, _ => .err "region id not found"
  | line :: rest, id, contigsFound =>
    if isContigLine line then
      match contigDefinesReference line referenceName with
      | none => .panic
      | some true =>
        match getIdx line with
        | .error e => .err ("getting idx: " ++ e)
        | .ok idx => if idx > -1 then .ok idx else .ok id
      | some false => getRefIDLoop referenceName rest (id + 1) true
    else
      if contigsFound then .err "reference name not found"
      else getRefIDLoop referenceName rest id contigsFound

/-- GetReferenceID from package bcf, embedded over the scanned header lines:
retrieves the reference id of the given reference name. -/
def GetReferenceID (lines : List (List Char)) (referenceName : List Char) : RefIDResult :=
  getRefIDLoop referenceName lines 0 false

end bcf

namespace api

/-- Error kinds of chunksRequest.handle: a storage-access failure from
newStorageError (no index candidate could be opened) or a wrapped index
decode failure. -/
inductive HandleError where
  | storage (op msg : String)
  | readErr (msg : String)
deriving DecidableEq

/-- Candidate-opening loop of chunksRequest.handle: index and err are the Go
loop variables (both initially nil); each candidate overwrites them, and the
loop stops at the first candidate that opens without error. -/
def openLoop {α ρ : Type} (newReader : α → Except String ρ) :
    List α → Option ρ × Option String → Option ρ × Option String
  | [], st => st
  | o :: rest, _ =>
    match newReader o with
    | .ok r => (some r, none)
    | .error e => openLoop newReader rest (none, some e)

/-- chunksRequest.handle: try the index object candidates in order; if the
recorded error is non-nil after the loop, wrap it as a storage error;
otherwise decode the (possibly still nil) index stream with the request's
read function and merge the resulting chunks. The storage reader type and
the merge function (bgzf.Merge is not among the staged sources) are
parameters. -/
def handle {α ρ : Type} (indexObjects : List α) (newReader : α → Except String ρ)
    (read : Option ρ → Except String (List bgzf.Chunk))
    (merge : List bgzf.Chunk → List bgzf.Chunk) : Except HandleError (List bgzf.Chunk) :=
  match openLoop newReader indexObjects (none, none) with
  | (_, some e) => .error (.storage "opening index" e)
  | (index, none) =>
    match read index with
    | .error e => .error (.readErr e)
    | .ok chunks => .ok (merge chunks)

/-- Test for a storage-access error result. -/
def isStorageErr {β : Type} : Except HandleError β → Bool
  | .error (.storage _ _) => true
  | _ => false

end api

namespace bcf

/-! Decoder characterization: folds describing the header-chunk narrowing and
the emitted chunk list, and the round-trip theorem for encoded indexes. -/

/-- Header-end narrowing over a list of chunk records: lower the end to each
chunk start that is smaller. -/
def headerNarrow (hEnd : Nat) (cs : List bgzf.Chunk) : Nat :=
  cs.foldl (fun h c => if c.Start < h then c.Start else h) hEnd

/-- Header-end narrowing contributed by one bin: chunks of the metadata bin
are skipped entirely. -/
def chunksHeaderFold (binID hEnd : Nat) (cs : List bgzf.Chunk) : Nat :=
  if binID = csi.MetadataBeanID then hEnd else headerNarrow hEnd cs

/-- Chunks emitted from one bin: none for the metadata bin, otherwise the
chunks with end at or above the bin offset, kept only when inc holds. -/
def emittedOf (binID binOffset : Nat) (inc : Bool) (cs : List bgzf.Chunk) : List bgzf.Chunk :=
  if binID = csi.MetadataBeanID then []
  else cs.filter (fun c => inc && decide (binOffset ≤ c.End))

/-- Header-end narrowing over a list of bins. -/
def binsHeaderFold (hEnd : Nat) (bs : List Bin) : Nat :=
  bs.foldl (fun h b => chunksHeaderFold b.ID h b.chunks) hEnd

/-- Header-end narrowing over all references. -/
def refsHeaderFold (hEnd : Nat) (refs : List (List Bin)) : Nat :=
  refs.foldl binsHeaderFold hEnd

/-- Chunks emitted from one bin of the given reference, the inclusion decided
by RegionContainsBin. -/
def binEmitted (region : genomics.Region) (bins : List Nat) (reference : Int)
    (b : Bin) : List bgzf.Chunk :=
  emittedOf b.ID b.Offset (csi.RegionContainsBin region reference b.ID bins) b.chunks

/-- Chunks emitted from all references, in file-encounter order, the
reference ids counting up from the given value. -/
def refsEmitted (region : genomics.Region) (bins : List Nat) :
    Int → List (List Bin) → List bgzf.Chunk
  | _, [] => []
  | r, bs :: rest =>
    bs.flatMap (binEmitted region bins r) ++ refsEmitted region bins (r + 1) rest

/-! Claim-side characterizations of the decoder's output list (claims C1 and
C3). -/

/-- File-order list of (reference id, bin, chunk) records of the index, the
reference ids counting up from the given value. -/
def recordsOf : Int → List (List Bin) → List (Int × Bin × bgzf.Chunk)
  | _, [] => []
  | r, bs :: rest =>
    bs.flatMap (fun b => b.chunks.map (fun c => (r, b, c))) ++ recordsOf (r + 1) rest

/-- Record filter of claim C1: the bin is not the metadata bin, the bin
passes RegionContainsBin with the precomputed candidate bins, and the chunk
end is at or above the bin's stated offset. -/
def keepRecord (region : genomics.Region) (cand : List Nat)
    (rbc : Int × Bin × bgzf.Chunk) : Bool :=
  decide (rbc.2.1.ID ≠ csi.MetadataBeanID) &&
    csi.RegionContainsBin region rbc.1 rbc.2.1.ID cand &&
    decide (rbc.2.1.Offset ≤ rbc.2.2.End)

/-- Chunk list exactly as claim C1 words it: those chunk records of the
file-order record list that pass keepRecord, in file-encounter order. -/
def specEmitted (region : genomics.Region) (cand : List Nat)
    (refs : List (List Bin)) : List bgzf.Chunk :=
  ((recordsOf 0 refs).filter (keepRecord region cand)).map (fun rbc => rbc.2.2)

/-! Header-chunk characterization for claim C3. -/

/-- Starts of all chunk records of non-metadata bins, across the whole
index, in file order. -/
def nonMetaStarts (refs : List (List Bin)) : List Nat :=
  refs.flatMap (fun bs => bs.flatMap (fun b =>
    if b.ID = csi.MetadataBeanID then [] else b.chunks.map bgzf.Chunk.Start))

/-- Minimum of a list of offsets, or the given default when there is none. -/
def minOr (d : Nat) : List Nat → Nat
  | [] => d
  | x :: xs => xs.foldl min x

/-- Resolution of a matched contig line: the parsed IDX value when the line
carries one that parses and exceeds -1, the ordinal otherwise, and the
wrapped parse error when parsing the IDX value fails. -/
def resolveContig (line : List Char) (ord : Int) : RefIDResult :=
  match getIdx line with
  | .error e => .err ("getting idx: " ++ e)
  | .ok idx => if idx > -1 then .ok idx else .ok ord

end bcf

/-- Decidability of chunk well-formedness, for concrete witnesses. -/
instance (c : bgzf.Chunk) : Decidable (bcf.WFChunk c) := by
  unfold bcf.WFChunk
  infer_instance

/-- Decidability of bin well-formedness, for concrete witnesses. -/
instance (b : bcf.Bin) : Decidable (bcf.WFBin b) := by
  unfold bcf.WFBin
  infer_instance

/-- Decidability of index well-formedness, for concrete witnesses. -/
instance (idx : bcf.Index) : Decidable (bcf.WFIndex idx) := by
  unfold bcf.WFIndex
  infer_instance

/-- Concrete index used by the decoder witnesses: canonical parameters, one
auxiliary byte, a data bin (under the region), a metadata bin, and a second
reference. -/
def witnessIndex : bcf.Index :=
  ⟨14, 5, [7],
    [[⟨4681, 100, [⟨50, 200⟩, ⟨10, 90⟩]⟩, ⟨37450, 0, [⟨1, 2⟩]⟩],
     [⟨2, 0, [⟨300, 400⟩]⟩]]⟩

/-- Concrete region used by the decoder witnesses. -/
def witnessRegion : genomics.Region := ⟨0, 93822816, 93825705⟩

/-- Concrete opener for the C7 witness: candidate 1 fails, candidate 2
opens. -/
def witnessNewReader : Nat → Except String String :=
  fun n => if n = 1 then .error "missing" else .ok "r"

/-- Concrete decode function for the C7 witness. -/
def witnessRead : Option String → Except String (List bgzf.Chunk) :=
  fun _ => .ok []

/-! Round-trip lemmas: each binary reader consumes exactly the bytes its
encoder produced. -/

theorem readBytes_append (a r : List Nat) (n : Nat) (h : a.length = n) :
    readBytes n (a ++ r) = some (a, r) := by
  subst h
  simp [readBytes]

theorem leVal_u32le (n : Nat) (h : n < 2 ^ 32) : leVal (u32le n) = n := by
  simp [u32le, leVal]
  omega

theorem leVal_u64le (n : Nat) (h : n < 2 ^ 64) : leVal (u64le n) = n := by
  simp [u64le, leVal]
  omega

theorem readU32_u32le (n : Nat) (h : n < 2 ^ 32) (r : List Nat) :
    readU32 (u32le n ++ r) = some (n, r) := by
  unfold readU32
  rw [readBytes_append (u32le n) r 4 rfl]
  show some (leVal (u32le n), r) = some (n, r)
  rw [leVal_u32le n h]

theorem readU64_u64le (n : Nat) (h : n < 2 ^ 64) (r : List Nat) :
    readU64 (u64le n ++ r) = some (n, r) := by
  unfold readU64
  rw [readBytes_append (u64le n) r 8 rfl]
  show some (leVal (u64le n), r) = some (n, r)
  rw [leVal_u64le n h]

theorem readI32_i32le (x : Int) (h1 : -2 ^ 31 ≤ x) (h2 : x < 2 ^ 31) (r : List Nat) :
    readI32 (i32le x ++ r) = some (x, r) := by
  unfold readI32 i32le
  have hb : (x % 2 ^ 32).toNat < 2 ^ 32 := by omega
  simp only [readU32_u32le (x % 2 ^ 32).toNat hb r]
  show some (toInt32 (x % 2 ^ 32).toNat, r) = some (x, r)
  have hx : toInt32 (x % 2 ^ 32).toNat = x := by
    unfold toInt32
    split <;> omega
  rw [hx]

namespace bcf

theorem readChunks_encode (binID binOffset : Nat) (inc : Bool) (cs : List bgzf.Chunk)
    (h : ∀ c ∈ cs, WFChunk c) :
    ∀ (rest : List Nat) (hEnd : Nat) (acc : List bgzf.Chunk),
    readChunks binID binOffset inc cs.length (cs.flatMap encodeChunk ++ rest) hEnd acc =
      .ok (rest, chunksHeaderFold binID hEnd cs, acc ++ emittedOf binID binOffset inc cs) := by
  induction cs with
  | nil =>
    intro rest hEnd acc
    simp [readChunks, chunksHeaderFold, emittedOf, headerNarrow, ite_self]
  | cons c cs ih =>
    intro rest hEnd acc
    obtain ⟨hS, hE⟩ := h c (List.mem_cons_self c cs)
    have hrec := ih (fun x hx => h x (List.mem_cons_of_mem _ hx))
    simp only [List.flatMap_cons, encodeChunk, List.append_assoc, List.length_cons]
    simp only [readChunks, readU64_u64le c.Start hS, readU64_u64le c.End hE, need,
      Except.bind, bind]
    by_cases hm : binID = csi.MetadataBeanID
    · simp only [if_pos hm, hrec, chunksHeaderFold, emittedOf, if_pos hm]
    · simp only [if_neg hm, hrec, chunksHeaderFold, emittedOf, if_neg hm, headerNarrow,
        List.foldl_cons, List.filter_cons]
      by_cases hb : (inc && decide (binOffset ≤ c.End)) = true
      · rw [if_pos hb, if_pos hb]
        simp
      · rw [if_neg hb, if_neg hb]

theorem readBins_encode (region : genomics.Region) (bins : List Nat) (reference : Int)
    (bs : List Bin) (h : ∀ b ∈ bs, WFBin b) :
    ∀ (rest : List Nat) (hEnd : Nat) (acc : List bgzf.Chunk),
    readBins region bins reference bs.length (bs.flatMap encodeBin ++ rest) hEnd acc =
      .ok (rest, binsHeaderFold hEnd bs, acc ++ bs.flatMap (binEmitted region bins reference)) := by
  induction bs with
  | nil =>
    intro rest hEnd acc
    simp [readBins, binsHeaderFold]
  | cons b bs ih =>
    intro rest hEnd acc
    obtain ⟨hID, hOff, hCnt, hCs⟩ := h b (List.mem_cons_self b bs)
    have hrec := ih (fun x hx => h x (List.mem_cons_of_mem _ hx))
    have hle : -2 ^ 31 ≤ (b.chunks.length : Int) := by omega
    have hlt : (b.chunks.length : Int) < 2 ^ 31 := by omega
    simp only [List.flatMap_cons, encodeBin, List.append_assoc, List.length_cons]
    simp only [readBins, readU32_u32le b.ID hID, readU64_u64le b.Offset hOff,
      readI32_i32le (b.chunks.length : Int) hle hlt, need, Except.bind, bind,
      Int.toNat_natCast, readChunks_encode b.ID b.Offset _ b.chunks hCs, hrec,
      binsHeaderFold, binEmitted, List.foldl_cons, List.append_assoc]

theorem readRefs_encode (region : genomics.Region) (bins : List Nat)
    (refs : List (List Bin)) (h : ∀ r ∈ refs, r.length < 2 ^ 31 ∧ ∀ b ∈ r, WFBin b) :
    ∀ (r0 : Int) (rest : List Nat) (hEnd : Nat) (acc : List bgzf.Chunk),
    readRefs region bins refs.length r0 (refs.flatMap encodeRef ++ rest) hEnd acc =
      .ok (rest, refsHeaderFold hEnd refs, acc ++ refsEmitted region bins r0 refs) := by
  induction refs with
  | nil =>
    intro r0 rest hEnd acc
    simp [readRefs, refsHeaderFold, refsEmitted]
  | cons bs refs ih =>
    intro r0 rest hEnd acc
    obtain ⟨hbl, hbw⟩ := h bs (List.mem_cons_self bs refs)
    have hrec := ih (fun x hx => h x (List.mem_cons_of_mem _ hx))
    have hle : -2 ^ 31 ≤ (bs.length : Int) := by omega
    have hlt : (bs.length : Int) < 2 ^ 31 := by omega
    simp only [List.flatMap_cons, encodeRef, List.append_assoc, List.length_cons]
    simp only [readRefs, readI32_i32le (bs.length : Int) hle hlt, need, Except.bind, bind,
      Int.toNat_natCast, readBins_encode region bins r0 bs hbw, hrec,
      refsHeaderFold, refsEmitted, List.foldl_cons, List.append_assoc]

theorem checkMagicE_encode (s : List Nat) : checkMagicE (csiMagic ++ s) = .ok s := by
  unfold checkMagicE
  rw [readBytes_append csiMagic s 4 rfl]
  simp

theorem skipN_encode (aux rest : List Nat) :
    skipN (aux.length : Int) (aux ++ rest) = .ok rest := by
  unfold skipN
  by_cases h0 : (aux.length : Int) ≤ 0
  · have hl : aux.length = 0 := by omega
    rw [if_pos h0, List.eq_nil_of_length_eq_zero hl, List.nil_append]
  · rw [if_neg h0]
    have ht : ((aux.length : Int)).toNat = aux.length := by omega
    rw [ht, if_pos (by simp), List.drop_left]

theorem Read_encode (idx : Index) (region : genomics.Region) (h : WFIndex idx) :
    Read (encodeIndex idx) region =
      .ok (⟨0, refsHeaderFold bgzf.LastAddress idx.refs⟩ ::
        refsEmitted region (csi.BinsForRange region.Start region.End idx.minShift idx.depth)
          0 idx.refs) := by
  obtain ⟨hm1, hm2, hd1, hd2, hal, hab, hrl, hr⟩ := h
  have hle : -2 ^ 31 ≤ (idx.aux.length : Int) := by omega
  have hlt : (idx.aux.length : Int) < 2 ^ 31 := by omega
  have hrle : -2 ^ 31 ≤ (idx.refs.length : Int) := by omega
  have hrlt : (idx.refs.length : Int) < 2 ^ 31 := by omega
  unfold Read encodeIndex
  rw [← List.append_nil (idx.refs.flatMap encodeRef)]
  simp only [List.append_assoc]
  simp only [checkMagicE_encode, readI32_i32le idx.minShift hm1 hm2,
    readI32_i32le idx.depth hd1 hd2, readI32_i32le (idx.aux.length : Int) hle hlt,
    readI32_i32le (idx.refs.length : Int) hrle hrlt, skipN_encode, need, Except.bind, bind,
    Int.toNat_natCast, readRefs_encode region _ idx.refs hr, List.nil_append]
  rfl

theorem binEmitted_eq_records (region : genomics.Region) (cand : List Nat) (r : Int)
    (b : Bin) :
    binEmitted region cand r b =
      ((b.chunks.map (fun c => (r, b, c))).filter (keepRecord region cand)).map
        (fun rbc => rbc.2.2) := by
  unfold binEmitted emittedOf
  by_cases hm : b.ID = csi.MetadataBeanID
  · rw [if_pos hm]
    have key : ∀ cs : List bgzf.Chunk,
        ((cs.map (fun c => (r, b, c))).filter (keepRecord region cand)).map
          (fun rbc => rbc.2.2) = [] := by
      intro cs
      induction cs with
      | nil => rfl
      | cons c cs ih =>
        simp only [List.map_cons, List.filter_cons]
        rw [if_neg (by simp [keepRecord, hm])]
        exact ih
    exact (key b.chunks).symm
  · rw [if_neg hm]
    have key : ∀ cs : List bgzf.Chunk,
        cs.filter (fun c => csi.RegionContainsBin region r b.ID cand &&
            decide (b.Offset ≤ c.End)) =
          ((cs.map (fun c => (r, b, c))).filter (keepRecord region cand)).map
            (fun rbc => rbc.2.2) := by
      intro cs
      induction cs with
      | nil => rfl
      | cons c cs ih =>
        simp only [List.map_cons, List.filter_cons]
        have hk : keepRecord region cand (r, b, c) =
            (csi.RegionContainsBin region r b.ID cand && decide (b.Offset ≤ c.End)) := by
          simp [keepRecord, hm]
        rw [hk]
        by_cases hcond : (csi.RegionContainsBin region r b.ID cand &&
            decide (b.Offset ≤ c.End)) = true
        · rw [if_pos hcond, if_pos hcond, List.map_cons]
          rw [ih]
        · rw [if_neg hcond, if_neg hcond]
          exact ih
    exact key b.chunks

theorem refsEmitted_eq_records (region : genomics.Region) (cand : List Nat) :
    ∀ (refs : List (List Bin)) (r : Int),
    refsEmitted region cand r refs =
      ((recordsOf r refs).filter (keepRecord region cand)).map (fun rbc => rbc.2.2) := by
  intro refs
  induction refs with
  | nil => intro r; simp [refsEmitted, recordsOf]
  | cons bs rest ih =>
    intro r
    simp only [refsEmitted, recordsOf, List.filter_append, List.map_append, ih]
    congr 1
    induction bs with
    | nil => simp
    | cons b bs ihb =>
      simp only [List.flatMap_cons, List.filter_append, List.map_append, ihb]
      congr 1
      exact binEmitted_eq_records region cand r b

theorem headerNarrow_eq_foldl_min (hEnd : Nat) (cs : List bgzf.Chunk) :
    headerNarrow hEnd cs = (cs.map bgzf.Chunk.Start).foldl min hEnd := by
  unfold headerNarrow
  rw [List.foldl_map]
  congr 1
  funext h c
  split <;> omega

theorem refsHeaderFold_eq_foldl_min (refs : List (List Bin)) :
    ∀ (hEnd : Nat), refsHeaderFold hEnd refs = (nonMetaStarts refs).foldl min hEnd := by
  induction refs with
  | nil => intro hEnd; simp [refsHeaderFold, nonMetaStarts]
  | cons bs rest ih =>
    intro hEnd
    simp only [refsHeaderFold, nonMetaStarts, List.flatMap_cons, List.foldl_append,
      List.foldl_cons]
    rw [show List.foldl binsHeaderFold (binsHeaderFold hEnd bs) rest =
      refsHeaderFold (binsHeaderFold hEnd bs) rest from rfl]
    rw [ih (binsHeaderFold hEnd bs)]
    congr 1
    induction bs generalizing hEnd with
    | nil => simp [binsHeaderFold]
    | cons b bs ihb =>
      simp only [binsHeaderFold, List.foldl_cons, List.flatMap_cons, List.foldl_append]
      rw [show List.foldl (fun h b => chunksHeaderFold b.ID h b.chunks)
        (chunksHeaderFold b.ID hEnd b.chunks) bs =
        binsHeaderFold (chunksHeaderFold b.ID hEnd b.chunks) bs from rfl]
      rw [ihb (chunksHeaderFold b.ID hEnd b.chunks)]
      congr 1
      unfold chunksHeaderFold
      by_cases hm : b.ID = csi.MetadataBeanID
      · rw [if_pos hm, if_pos hm]
        rfl
      · rw [if_neg hm, if_neg hm, headerNarrow_eq_foldl_min]

theorem foldl_min_eq_minOr (d : Nat) (l : List Nat) (hd : ∀ x ∈ l, x ≤ d) :
    l.foldl min d = minOr d l := by
  cases l with
  | nil => rfl
  | cons x xs =>
    simp only [List.foldl_cons, minOr]
    rw [Nat.min_eq_right (hd x (List.mem_cons_self x xs))]

theorem nonMetaStarts_le (idx : Index) (h : WFIndex idx) :
    ∀ x ∈ nonMetaStarts idx.refs, x ≤ bgzf.LastAddress := by
  obtain ⟨-, -, -, -, -, -, -, hr⟩ := h
  intro x hx
  simp only [nonMetaStarts, List.mem_flatMap] at hx
  obtain ⟨bs, hbs, b, hb, hxb⟩ := hx
  by_cases hm : b.ID = csi.MetadataBeanID
  · rw [if_pos hm] at hxb
    simp at hxb
  · rw [if_neg hm] at hxb
    simp only [List.mem_map] at hxb
    obtain ⟨c, hc, rfl⟩ := hxb
    have := ((hr bs hbs).2 b hb).2.2.2 c hc
    unfold WFChunk at this
    unfold bgzf.LastAddress
    omega

end bcf

/-! Equivalence of BinsForRange with the claimed per-level id ranges, for
parameters where the Go uint arithmetic does not wrap. -/

theorem cumBase_seven (l : Nat) : 7 * cumBase l + 1 = 8 ^ l := by
  induction l with
  | zero => rfl
  | succ l ih =>
    simp only [cumBase, pow_succ]
    omega

theorem shiftRight_le_self (x s : Nat) : x >>> s ≤ x := by
  rw [Nat.shiftRight_eq_div_pow]
  exact Nat.div_le_self x (2 ^ s)

theorem shiftRight_mono {a b : Nat} (s : Nat) (h : a ≤ b) : a >>> s ≤ b >>> s := by
  rw [Nat.shiftRight_eq_div_pow, Nat.shiftRight_eq_div_pow]
  exact Nat.div_le_div_right h

theorem binsLoop_spec (start e1 minS dT : Nat) (hsum : minS + 3 * dT ≤ 63)
    (hse : start ≤ e1) (he1 : e1 ≤ 2 ^ 29) :
    ∀ (k l : Nat), l + k = dT + 1 →
    csi.binsLoop start e1 k l (cumBase l) (minS + 3 * (dT - l)) =
      (List.range k).flatMap
        (fun j => (claimLevel start e1 minS dT (l + j)).map (· % 2 ^ 16)) := by
  intro k
  induction k with
  | zero => intro l hl; rfl
  | succ k ih =>
    intro l hl
    have hldT : l ≤ dT := by omega
    have hdT : dT ≤ 21 := by omega
    have h8 : 8 ^ l ≤ 8 ^ 21 := Nat.pow_le_pow_right (by norm_num) (by omega)
    have h8s : 8 ^ (l + 1) ≤ 8 ^ 22 := Nat.pow_le_pow_right (by norm_num) (by omega)
    have hc7 := cumBase_seven l
    have hc7s := cumBase_seven (l + 1)
    have hsh1 := shiftRight_le_self start (minS + 3 * (dT - l))
    have hsh2 := shiftRight_le_self e1 (minS + 3 * (dT - l))
    have hble : (start >>> (minS + 3 * (dT - l))) ≤ (e1 >>> (minS + 3 * (dT - l))) :=
      shiftRight_mono _ hse
    have hblt : cumBase l + (start >>> (minS + 3 * (dT - l))) < 2 ^ 64 := by omega
    have helt : cumBase l + (e1 >>> (minS + 3 * (dT - l))) < 2 ^ 64 := by omega
    have hgo : csi.goShl1 (l * 3) = 8 ^ l := by
      unfold csi.goShl1
      rw [if_pos (by omega), mul_comm, Nat.pow_mul]
    simp only [csi.binsLoop,
      show (l * 3) % 2 ^ 64 = l * 3 from Nat.mod_eq_of_lt (by omega), hgo,
      show (cumBase l + 8 ^ l) % 2 ^ 64 = cumBase (l + 1) from Nat.mod_eq_of_lt (by omega),
      Nat.mod_eq_of_lt hblt, Nat.mod_eq_of_lt helt,
      if_pos (by omega : cumBase l + (start >>> (minS + 3 * (dT - l))) ≤
        cumBase l + (e1 >>> (minS + 3 * (dT - l))))]
    rw [List.range_succ_eq_map k, List.flatMap_cons, List.flatMap_map]
    congr 1
    · simp only [Nat.add_zero, claimLevel, List.map_map]
      rfl
    · rcases Nat.lt_or_ge l dT with hlt | hge
      · rw [show (minS + 3 * (dT - l) + (2 ^ 64 - 3)) % 2 ^ 64 =
            minS + 3 * (dT - (l + 1)) from by omega]
        refine (ih (l + 1) (by omega)).trans ?_
        congr 1
        funext j
        have hj : l + 1 + j = l + (j + 1) := by omega
        simp only [Function.comp, Nat.succ_eq_add_one, hj]
      · have hk0 : k = 0 := by omega
        subst hk0
        rfl

theorem clampEnd_le (endv : Nat) : csi.clampEnd endv ≤ 2 ^ 29 := by
  unfold csi.clampEnd csi.maximumReadLength
  split
  · exact le_rfl
  · next hno => omega

theorem BinsForRange_spec (start endv : Nat) (minShift depth : Int)
    (h1 : 0 ≤ minShift) (h2 : 0 ≤ depth) (h3 : minShift + 3 * depth ≤ 63) :
    csi.BinsForRange start endv minShift depth =
      (claimBins start endv minShift depth).map (· % 2 ^ 16) := by
  unfold csi.BinsForRange claimBins
  by_cases hle : csi.clampEnd endv ≤ start
  · rw [if_pos hle, if_pos hle]
    rfl
  · rw [if_neg hle, if_neg hle]
    by_cases hms : csi.maximumReadLength < start
    · rw [if_pos hms, if_pos hms]
      rfl
    · rw [if_neg hms, if_neg hms]
      have hu1 : uint64ofInt depth = depth.toNat := by
        unfold uint64ofInt
        rw [Int.emod_eq_of_lt h2 (by omega)]
      have hw : int32wrap (minShift + depth * 3) = minShift + depth * 3 := by
        unfold int32wrap
        rw [Int.emod_eq_of_lt (by omega) (by omega)]
        omega
      have hu2 : uint64ofInt (minShift + depth * 3) =
          minShift.toNat + 3 * depth.toNat := by
        unfold uint64ofInt
        rw [Int.emod_eq_of_lt (by omega) (by omega)]
        omega
      have hcmax := clampEnd_le endv
      have hkey := binsLoop_spec start (csi.clampEnd endv - 1) minShift.toNat depth.toNat
        (by omega) (by omega) (by omega) (depth.toNat + 1) 0 (by omega)
      rw [show cumBase 0 = 0 from rfl] at hkey
      rw [show minShift.toNat + 3 * (depth.toNat - 0) = minShift.toNat + 3 * depth.toNat
        from by omega] at hkey
      rw [hu1, hw, hu2, hkey, List.map_flatMap]
      congr 1
      funext j
      rw [show (0 : Nat) + j = j from by omega]

/-! Duplicate-freedom of the bin list for standard index parameters
(claim C8): when 29 <= minShift + 3 * depth <= 63 and depth <= 5 the
per-level id ranges live in disjoint intervals below 2^16, so neither the
uint16 truncation nor a level overlap can repeat an id. -/

theorem cumBase_mono {a b : Nat} (h : a ≤ b) : cumBase a ≤ cumBase b := by
  induction b with
  | zero => simp_all
  | succ b ih =>
    rcases Nat.lt_or_ge a (b + 1) with hlt | hge
    · exact le_trans (ih (by omega)) (by simp [cumBase])
    · have : a = b + 1 := by omega
      subst this
      exact le_rfl

theorem claimLevel_mem_bound {start e1 minS dT l : Nat} (hse : start ≤ e1)
    (he1 : e1 ≤ 2 ^ 29 - 1) (hs29 : 29 ≤ minS + 3 * dT) (hl : l ≤ dT)
    (hl5 : 3 * l ≤ 29) :
    ∀ x ∈ claimLevel start e1 minS dT l,
      cumBase l ≤ x ∧ x < cumBase l + 8 ^ l := by
  intro x hx
  simp only [claimLevel, List.mem_map, List.mem_range] at hx
  obtain ⟨i, hi, rfl⟩ := hx
  have hmono : start >>> (minS + 3 * (dT - l)) ≤ e1 >>> (minS + 3 * (dT - l)) :=
    shiftRight_mono _ hse
  have hshift : e1 >>> (minS + 3 * (dT - l)) < 8 ^ l := by
    have h1 : e1 >>> (minS + 3 * (dT - l)) ≤ e1 >>> (29 - 3 * l) := by
      rw [Nat.shiftRight_eq_div_pow, Nat.shiftRight_eq_div_pow]
      exact Nat.div_le_div_left (Nat.pow_le_pow_right (by norm_num) (by omega))
        (Nat.pos_pow_of_pos _ (by norm_num))
    have h2 : e1 >>> (29 - 3 * l) < 8 ^ l := by
      rw [Nat.shiftRight_eq_div_pow]
      rw [Nat.div_lt_iff_lt_mul (Nat.pos_pow_of_pos _ (by norm_num : 0 < 2))]
      calc e1 ≤ 2 ^ 29 - 1 := he1
        _ < 2 ^ 29 := by norm_num
        _ = 2 ^ (3 * l) * 2 ^ (29 - 3 * l) := by
            rw [← pow_add]
            congr 1
            omega
        _ = 8 ^ l * 2 ^ (29 - 3 * l) := by
            congr 1
            rw [show (8 : Nat) = 2 ^ 3 from rfl, ← pow_mul]
    omega
  generalize hG1 : start >>> (minS + 3 * (dT - l)) = d1 at hmono hi ⊢
  generalize hG2 : e1 >>> (minS + 3 * (dT - l)) = d2 at hmono hshift hi ⊢
  omega

theorem claimBins_nodup (start endv : Nat) (minShift depth : Int)
    (h1 : 0 ≤ minShift) (h2 : 0 ≤ depth) (h4 : depth ≤ 5)
    (h5 : 29 ≤ minShift + 3 * depth) :
    (claimBins start endv minShift depth).Nodup ∧
    ∀ x ∈ claimBins start endv minShift depth, x < 2 ^ 16 := by
  unfold claimBins
  by_cases hle : csi.clampEnd endv ≤ start
  · rw [if_pos hle]
    simp
  · rw [if_neg hle]
    by_cases hms : csi.maximumReadLength < start
    · rw [if_pos hms]
      simp
    · rw [if_neg hms]
      have hcmax := clampEnd_le endv
      have hse : start ≤ csi.clampEnd endv - 1 := by omega
      have he1 : csi.clampEnd endv - 1 ≤ 2 ^ 29 - 1 := by omega
      have hs29 : 29 ≤ minShift.toNat + 3 * depth.toNat := by omega
      have hbound : ∀ l ∈ List.range (depth.toNat + 1),
          ∀ x ∈ claimLevel start (csi.clampEnd endv - 1) minShift.toNat depth.toNat l,
          cumBase l ≤ x ∧ x < cumBase (l + 1) := by
        intro l hl x hx
        have hlr := List.mem_range.mp hl
        have hb := claimLevel_mem_bound hse he1 hs29 (by omega) (by omega) x hx
        exact ⟨hb.1, hb.2⟩
      constructor
      · rw [List.nodup_flatMap]
        constructor
        · intro l hl
          unfold claimLevel
          exact (List.nodup_range _).map (fun a b h => by omega)
        · refine (List.pairwise_lt_range _).imp_of_mem ?_
          intro a b ha hb hab
          intro x hxa hxb
          have hA := hbound a ha x hxa
          have hB := hbound b hb x hxb
          have hmono : cumBase (a + 1) ≤ cumBase b := cumBase_mono (by omega)
          omega
      · intro x hx
        rw [List.mem_flatMap] at hx
        obtain ⟨l, hl, hxl⟩ := hx
        have hb := hbound l hl x hxl
        have hlr := List.mem_range.mp hl
        have hmono : cumBase (l + 1) ≤ cumBase 6 := cumBase_mono (by omega)
        have h6 : cumBase 6 = 37449 := rfl
        omega

namespace bcf

/-! Characterization of GetReferenceID over a header whose contig lines are
contiguous (claim C6). -/

theorem getRefIDLoop_skip_pre (name : List Char) :
    ∀ (pre rest : List (List Char)), (∀ l ∈ pre, isContigLine l = false) →
    ∀ id : Int,
    getRefIDLoop name (pre ++ rest) id false = getRefIDLoop name rest id false := by
  intro pre
  induction pre with
  | nil => intro rest h id; rfl
  | cons p ps ih =>
    intro rest h id
    have hp := h p (List.mem_cons_self p ps)
    simp only [List.cons_append, getRefIDLoop, hp, Bool.false_eq_true, if_false]
    exact ih rest (fun l hl => h l (List.mem_cons_of_mem _ hl)) id

theorem getRefIDLoop_post (name : List Char) :
    ∀ (post : List (List Char)), (∀ l ∈ post, isContigLine l = false) →
    ∀ (id : Int) (cf : Bool), ∃ msg, getRefIDLoop name post id cf = .err msg := by
  intro post
  induction post with
  | nil => intro h id cf; exact ⟨"region id not found", rfl⟩
  | cons p ps ih =>
    intro h id cf
    have hp := h p (List.mem_cons_self p ps)
    cases cf with
    | true =>
      refine ⟨"reference name not found", ?_⟩
      simp only [getRefIDLoop, hp, Bool.false_eq_true, if_false, if_pos rfl, if_true]
    | false =>
      obtain ⟨msg, hmsg⟩ := ih (fun l hl => h l (List.mem_cons_of_mem _ hl)) id false
      refine ⟨msg, ?_⟩
      simp only [getRefIDLoop, hp, Bool.false_eq_true, if_false]
      simpa using hmsg

theorem getRefIDLoop_mid_nomatch (name : List Char) :
    ∀ (mid : List (List Char)), (∀ l ∈ mid, isContigLine l = true) →
    (∀ l ∈ mid, contigDefinesReference l name = some false) →
    ∀ (post : List (List Char)), (∀ l ∈ post, isContigLine l = false) →
    ∀ (id : Int) (cf : Bool), ∃ msg, getRefIDLoop name (mid ++ post) id cf = .err msg := by
  intro mid
  induction mid with
  | nil => intro _ _ post hpost id cf; exact getRefIDLoop_post name post hpost id cf
  | cons m ms ih =>
    intro hc hm post hpost id cf
    have hcm := hc m (List.mem_cons_self m ms)
    have hmm := hm m (List.mem_cons_self m ms)
    obtain ⟨msg, hmsg⟩ := ih (fun l hl => hc l (List.mem_cons_of_mem _ hl))
      (fun l hl => hm l (List.mem_cons_of_mem _ hl)) post hpost (id + 1) true
    refine ⟨msg, ?_⟩
    simp only [List.cons_append, getRefIDLoop, hcm, if_pos rfl, if_true, hmm]
    exact hmsg

theorem getRefIDLoop_mid_match (name : List Char) :
    ∀ (mid1 : List (List Char)), (∀ l ∈ mid1, isContigLine l = true) →
    (∀ l ∈ mid1, contigDefinesReference l name = some false) →
    ∀ (m : List Char), isContigLine m = true →
    contigDefinesReference m name = some true →
    ∀ (rest : List (List Char)) (id : Int) (cf : Bool),
    getRefIDLoop name (mid1 ++ m :: rest) id cf =
      resolveContig m (id + mid1.length) := by
  intro mid1
  induction mid1 with
  | nil =>
    intro _ _ m hcm hmm rest id cf
    simp only [List.nil_append, getRefIDLoop, hcm, if_pos rfl, if_true, hmm, resolveContig,
      List.length_nil, Nat.cast_zero, add_zero]
  | cons p ps ih =>
    intro hc hm m hcm hmm rest id cf
    have hcp := hc p (List.mem_cons_self p ps)
    have hmp := hm p (List.mem_cons_self p ps)
    have hrec := ih (fun l hl => hc l (List.mem_cons_of_mem _ hl))
      (fun l hl => hm l (List.mem_cons_of_mem _ hl)) m hcm hmm rest (id + 1) true
    simp only [List.cons_append, getRefIDLoop, hcp, if_pos rfl, if_true, hmp]
    refine Eq.trans hrec ?_
    congr 1
    simp only [List.length_cons]
    push_cast
    ring

end bcf

namespace api

/-! Characterization of the candidate-opening loop (claims C7 and C10). -/

theorem openLoop_first_success {α ρ : Type} (newReader : α → Except String ρ) :
    ∀ (objs : List α) (i : Nat) (hi : i < objs.length) (r : ρ),
    (∀ l ∈ objs.take i, ∃ e, newReader l = .error e) →
    newReader (objs.get ⟨i, hi⟩) = .ok r →
    ∀ st, openLoop newReader objs st = (some r, none) := by
  intro objs
  induction objs with
  | nil => intro i hi; exact absurd hi (by simp)
  | cons o rest ih =>
    intro i hi r hfail hok st
    cases i with
    | zero =>
      simp only [openLoop, show newReader o = .ok r from hok]
    | succ j =>
      obtain ⟨e, he⟩ := hfail o (by
        rw [List.take_succ_cons]
        exact List.mem_cons_self o _)
      simp only [openLoop, he]
      exact ih j (by simpa using hi) r
        (fun l hl => hfail l (by rw [List.take_succ_cons]; exact List.mem_cons_of_mem _ hl))
        hok (none, some e)

theorem openLoop_all_fail {α ρ : Type} (newReader : α → Except String ρ) :
    ∀ (objs : List α) (hne : objs ≠ []) (e : String),
    (∀ l ∈ objs, ∃ e2, newReader l = .error e2) →
    newReader (objs.getLast hne) = .error e →
    ∀ st, openLoop newReader objs st = (none, some e) := by
  intro objs
  induction objs with
  | nil => intro hne; exact absurd rfl hne
  | cons o rest ih =>
    intro hne e hall hlast st
    by_cases hr : rest = []
    · subst hr
      simp only [openLoop, show newReader o = .error e from hlast]
    · obtain ⟨e0, he0⟩ := hall o (List.mem_cons_self o rest)
      have hlast2 : newReader (rest.getLast hr) = .error e := by
        rw [← List.getLast_cons hr]
        exact hlast
      simp only [openLoop, he0]
      exact ih hr e (fun l hl => hall l (List.mem_cons_of_mem _ hl)) hlast2 (none, some e0)

end api

/-! Claim theorems. -/

/-- C2 (amended): for every start and end, and every int32 minShift and depth
with 0 <= minShift, 0 <= depth and minShift + 3 * depth <= 63, BinsForRange
first clamps end (to 2^29 when zero or larger), returns the empty list if
after clamping start >= end or start > 2^29, and otherwise returns for each
level l = 0..depth every bin id of the inclusive range
[t_l + (start >> s_l), t_l + ((end-1) >> s_l)] reduced modulo 2^16 (the
uint16 truncation the code applies), where s_l = minShift + (depth - l) * 3
and t_l is the cumulative base incremented by 8^l per level. -/
theorem C2_bins_for_range (start endv : Nat) (minShift depth : Int)
    (h1 : 0 ≤ minShift) (h2 : 0 ≤ depth) (h3 : minShift + 3 * depth ≤ 63) :
    csi.BinsForRange start endv minShift depth =
      (claimBins start endv minShift depth).map (· % 2 ^ 16) :=
  BinsForRange_spec start endv minShift depth h1 h2 h3

/-- C2 witness: the amended claim at start 0, end 1, minShift 14, depth 5. -/
theorem C2_bins_for_range_witness :
    csi.BinsForRange 0 1 14 5 = (claimBins 0 1 14 5).map (· % 2 ^ 16) :=
  C2_bins_for_range 0 1 14 5 (by norm_num) (by norm_num) (by norm_num)

/-- C2 counterexample: at start 0, end 1, minShift 0, depth 7 the returned
list is not the claimed per-level id list: the level-7 id 299593 is emitted
as its uint16 truncation 37449. -/
theorem C2_bins_for_range_counterexample :
    (csi.BinsForRange 0 1 0 7 == claimBins 0 1 0 7) = false ∧
    csi.BinsForRange 0 1 0 7 = [0, 1, 9, 73, 585, 4681, 37449, 37449] ∧
    claimBins 0 1 0 7 = [0, 1, 9, 73, 585, 4681, 37449, 299593] := by
  refine ⟨by decide, by decide, by decide⟩

/-- C5: RegionContainsBin returns false when the region constrains the
reference and the reference differs; returns true for a matching (or
unconstrained) reference when start and end are both zero, regardless of the
candidate list; and otherwise returns true iff the bin id appears in the
candidate list. -/
theorem C5_region_contains_bin (region : genomics.Region) (referenceID : Int)
    (binID : Nat) (bins : List Nat) :
    (0 ≤ region.ReferenceID → referenceID ≠ region.ReferenceID →
      csi.RegionContainsBin region referenceID binID bins = false) ∧
    ((region.ReferenceID < 0 ∨ referenceID = region.ReferenceID) →
      region.Start = 0 → region.End = 0 →
      csi.RegionContainsBin region referenceID binID bins = true) ∧
    ((region.ReferenceID < 0 ∨ referenceID = region.ReferenceID) →
      ¬(region.Start = 0 ∧ region.End = 0) →
      (csi.RegionContainsBin region referenceID binID bins = true ↔ binID ∈ bins)) := by
  unfold csi.RegionContainsBin
  refine ⟨?_, ?_, ?_⟩
  · intro h1 h2
    rw [if_pos ⟨h1, h2⟩]
  · intro h1 h2 h3
    have hnot : ¬(0 ≤ region.ReferenceID ∧ referenceID ≠ region.ReferenceID) := by
      rcases h1 with h | h
      · intro hc
        omega
      · intro hc
        exact hc.2 h
    rw [if_neg hnot, if_pos ⟨h2, h3⟩]
  · intro h1 h2
    have hnot : ¬(0 ≤ region.ReferenceID ∧ referenceID ≠ region.ReferenceID) := by
      rcases h1 with h | h
      · intro hc
        omega
      · intro hc
        exact hc.2 h
    rw [if_neg hnot, if_neg h2]
    simp [List.any_eq_true]

/-- C5 witness: the membership case at a concrete region and bin list. -/
theorem C5_region_contains_bin_witness :
    csi.RegionContainsBin ⟨0, 5, 10⟩ 0 3 [3] = true ↔ 3 ∈ [3] :=
  (C5_region_contains_bin ⟨0, 5, 10⟩ 0 3 [3]).2.2 (Or.inr rfl) (by decide)

/-- C8 (amended): for standard index parameters (0 <= minShift, 0 <= depth
<= 5 and 29 <= minShift + 3 * depth <= 63, as with the canonical minShift 14
and depth 5), the list returned by BinsForRange contains no duplicate bin
ids. -/
theorem C8_bins_nodup (start endv : Nat) (minShift depth : Int)
    (h1 : 0 ≤ minShift) (h2 : 0 ≤ depth) (h3 : minShift + 3 * depth ≤ 63)
    (h4 : depth ≤ 5) (h5 : 29 ≤ minShift + 3 * depth) :
    (csi.BinsForRange start endv minShift depth).Nodup := by
  rw [BinsForRange_spec start endv minShift depth h1 h2 h3]
  obtain ⟨hnd, hel⟩ := claimBins_nodup start endv minShift depth h1 h2 h4 h5
  have hmap : (claimBins start endv minShift depth).map (· % 2 ^ 16) =
      (claimBins start endv minShift depth).map id :=
    List.map_congr_left (fun x hx => Nat.mod_eq_of_lt (hel x hx))
  rw [hmap, List.map_id]
  exact hnd

/-- C8 witness: no duplicates for the canonical parameters at the sample
query range. -/
theorem C8_bins_nodup_witness : (csi.BinsForRange 93822816 93825705 14 5).Nodup :=
  C8_bins_nodup 93822816 93825705 14 5 (by norm_num) (by norm_num) (by norm_num)
    (by norm_num) (by norm_num)

/-- C8 counterexample: with minShift 1 and depth 1 the levels overlap and the
bin id 1 is emitted twice, so the returned list is not deduplicated. -/
theorem C8_bins_nodup_counterexample :
    (decide (csi.BinsForRange 0 32 1 1).Nodup) = false ∧
    (csi.BinsForRange 0 32 1 1).count 1 = 2 ∧
    csi.BinsForRange 0 32 1 1 =
      [0, 1, 1, 2, 3, 4, 5, 6, 7, 8, 9, 10, 11, 12, 13, 14, 15, 16] := by
  refine ⟨by decide, by decide, by decide⟩

/-- C9: contigDefinesReference evaluated at a line that ends immediately
after the occurrence of ID= followed by the reference name: the match is at
byte 10, the inspected position 10 + 3 + 4 = 17 equals the line length, and
the unconditional string index is out of bounds (none models the Go runtime
panic), so the function does not perform only in-bounds indexing. -/
theorem C9_contig_oob :
    bcf.contigDefinesReference ("##contig=<ID=chr1".toList) ("chr1".toList) = none ∧
    ("##contig=<ID=chr1".toList).length = 17 ∧
    bcf.strIndex (bcf.idEq ++ "chr1".toList) ("##contig=<ID=chr1".toList) = some 10 := by
  refine ⟨by decide, by decide, by decide⟩

/-- C4: the decoder does not reject negative count fields read from the
stream; with a negative reference count, auxiliary length, bin count or
chunk count it succeeds and returns just the synthesized header chunk
instead of reporting an error. -/
theorem C4_negative_counts :
    bcf.Read (bcf.csiMagic ++ i32le 14 ++ i32le 5 ++ i32le 0 ++ i32le (-1)) ⟨0, 1, 2⟩ =
      .ok [⟨0, bgzf.LastAddress⟩] ∧
    bcf.Read (bcf.csiMagic ++ i32le 14 ++ i32le 5 ++ i32le (-1) ++ i32le 0) ⟨0, 1, 2⟩ =
      .ok [⟨0, bgzf.LastAddress⟩] ∧
    bcf.Read (bcf.csiMagic ++ i32le 14 ++ i32le 5 ++ i32le 0 ++ i32le 1 ++ i32le (-1))
      ⟨0, 1, 2⟩ = .ok [⟨0, bgzf.LastAddress⟩] ∧
    bcf.Read (bcf.csiMagic ++ i32le 14 ++ i32le 5 ++ i32le 0 ++ i32le 1 ++ i32le 1 ++
      u32le 1 ++ u64le 0 ++ i32le (-1)) ⟨0, 1, 2⟩ = .ok [⟨0, bgzf.LastAddress⟩] := by
  refine ⟨by decide, by decide, by decide, by decide⟩

/-- C6 (amended): over a header stream whose contig declaration lines are
contiguous, and in which no contig line ends immediately after an ID=name
occurrence (which would be the out-of-bounds access of C9), GetReferenceID
resolves the first contig line whose ID= field matches the name as a
delimited token: it returns the integer parsed from that line's IDX= field
when the field is present, parses, and exceeds -1; otherwise the 0-based
ordinal of the line among the contig declarations (in particular for a
negative parsed IDX value the ordinal, not the parsed integer); a failing
IDX= parse is an error; and when no contig line matches it returns a
not-found error. -/
theorem C6_get_reference_id (pre mid post : List (List Char)) (name : List Char)
    (hpre : ∀ l ∈ pre, bcf.isContigLine l = false)
    (hmid : ∀ l ∈ mid, bcf.isContigLine l = true)
    (hpost : ∀ l ∈ post, bcf.isContigLine l = false) :
    ((∀ l ∈ mid, bcf.contigDefinesReference l name = some false) →
      ∃ msg, bcf.GetReferenceID (pre ++ mid ++ post) name = .err msg) ∧
    (∀ i : Nat, ∀ hi : i < mid.length,
      bcf.contigDefinesReference (mid.get ⟨i, hi⟩) name = some true →
      (∀ l ∈ mid.take i, bcf.contigDefinesReference l name = some false) →
      bcf.GetReferenceID (pre ++ mid ++ post) name =
        bcf.resolveContig (mid.get ⟨i, hi⟩) i) := by
  constructor
  · intro hall
    unfold bcf.GetReferenceID
    rw [List.append_assoc, bcf.getRefIDLoop_skip_pre name pre (mid ++ post) hpre 0]
    exact bcf.getRefIDLoop_mid_nomatch name mid hmid hall post hpost 0 false
  · intro i hi hmatch hbefore
    unfold bcf.GetReferenceID
    rw [List.append_assoc, bcf.getRefIDLoop_skip_pre name pre (mid ++ post) hpre 0]
    have hdec : mid = mid.take i ++ mid.get ⟨i, hi⟩ :: mid.drop (i + 1) := by
      conv_lhs => rw [← List.take_append_drop i mid]
      rw [List.drop_eq_getElem_cons hi]
      rfl
    have hloop : bcf.getRefIDLoop name (mid ++ post) 0 false =
        bcf.getRefIDLoop name
          ((mid.take i ++ mid.get ⟨i, hi⟩ :: mid.drop (i + 1)) ++ post) 0 false := by
      rw [← hdec]
    rw [hloop, List.append_assoc, List.cons_append]
    refine (bcf.getRefIDLoop_mid_match name (mid.take i)
      (fun l hl => hmid l (List.mem_of_mem_take hl)) hbefore
      (mid.get ⟨i, hi⟩) (hmid _ (List.get_mem mid i hi)) hmatch
      (mid.drop (i + 1) ++ post) 0 false).trans ?_
    congr 1
    rw [List.length_take, Nat.min_eq_left (le_of_lt hi), zero_add]

/-- C6 witness: the contig line with ID chr1 and IDX 0 queried with chr1, as
the only contig line, resolves per the amended rule. -/
theorem C6_get_reference_id_witness :
    bcf.GetReferenceID ([] ++ ["##contig=<ID=chr1,length=248956422,IDX=0>".toList] ++ [])
      ("chr1".toList) =
      bcf.resolveContig
        ((["##contig=<ID=chr1,length=248956422,IDX=0>".toList]).get ⟨0, by decide⟩) 0 :=
  (C6_get_reference_id [] ["##contig=<ID=chr1,length=248956422,IDX=0>".toList] []
    ("chr1".toList) (by simp) (by decide) (by simp)).2 0 (by decide) (by decide)
    (by simp)

/-- C6 counterexample: a contig line carrying IDX=-5 queried with its own ID
resolves to the ordinal 0, not to the parsed IDX integer -5 that the claim
requires. -/
theorem C6_get_reference_id_counterexample :
    bcf.GetReferenceID ["##contig=<ID=chr1,IDX=-5>".toList] ("chr1".toList) =
      .ok 0 ∧
    bcf.getIdx ("##contig=<ID=chr1,IDX=-5>".toList) = .ok (-5) ∧
    (decide ((bcf.RefIDResult.ok 0) = (bcf.RefIDResult.ok (-5)))) = false := by
  refine ⟨by decide, by decide, by decide⟩

/-- C1: decoding the serialization of any well-formed index returns the
synthesized header chunk first, followed, in file-encounter order, by
exactly those chunk records whose bin id is not the metadata-bin identifier,
whose bin passes RegionContainsBin with the precomputed candidate bins, and
whose end is at or above the bin's stated offset; in particular no chunk of
a metadata bin is emitted. -/
theorem C1_read_emits (idx : bcf.Index) (region : genomics.Region)
    (h : bcf.WFIndex idx) :
    ∃ hdr : bgzf.Chunk, hdr.Start = 0 ∧
      bcf.Read (bcf.encodeIndex idx) region =
        .ok (hdr :: bcf.specEmitted region
          (csi.BinsForRange region.Start region.End idx.minShift idx.depth)
          idx.refs) := by
  refine ⟨⟨0, bcf.refsHeaderFold bgzf.LastAddress idx.refs⟩, rfl, ?_⟩
  rw [bcf.Read_encode idx region h]
  unfold bcf.specEmitted
  rw [bcf.refsEmitted_eq_records]

/-- C1 witness: the round trip at the concrete witness index and region. -/
theorem C1_read_emits_witness :
    ∃ hdr : bgzf.Chunk, hdr.Start = 0 ∧
      bcf.Read (bcf.encodeIndex witnessIndex) witnessRegion =
        .ok (hdr :: bcf.specEmitted witnessRegion
          (csi.BinsForRange witnessRegion.Start witnessRegion.End
            witnessIndex.minShift witnessIndex.depth)
          witnessIndex.refs) :=
  C1_read_emits witnessIndex witnessRegion (by decide)

/-- C3: for any well-formed index the header chunk returned first has start 0
and end equal to the minimum start offset over all chunk records of
non-metadata bins across the entire index, or the maximal virtual offset
when there is no such record; and an index with reference count 0 decodes to
exactly that one chunk, spanning 0 to the maximal offset. -/
theorem C3_header_chunk (idx : bcf.Index) (region : genomics.Region)
    (h : bcf.WFIndex idx) :
    (∃ rest, bcf.Read (bcf.encodeIndex idx) region =
      .ok (⟨0, bcf.minOr bgzf.LastAddress (bcf.nonMetaStarts idx.refs)⟩ :: rest)) ∧
    (idx.refs = [] →
      bcf.Read (bcf.encodeIndex idx) region = .ok [⟨0, bgzf.LastAddress⟩]) := by
  have hd := bcf.Read_encode idx region h
  have hmin : bcf.refsHeaderFold bgzf.LastAddress idx.refs =
      bcf.minOr bgzf.LastAddress (bcf.nonMetaStarts idx.refs) := by
    rw [bcf.refsHeaderFold_eq_foldl_min,
      bcf.foldl_min_eq_minOr _ _ (bcf.nonMetaStarts_le idx h)]
  constructor
  · refine ⟨bcf.refsEmitted region
      (csi.BinsForRange region.Start region.End idx.minShift idx.depth) 0 idx.refs, ?_⟩
    rw [hd, hmin]
  · intro h0
    rw [hd, h0]
    rfl

/-- C3 witness: the header chunk value at the concrete witness index, and the
empty-index special case at an index with reference count 0. -/
theorem C3_header_chunk_witness :
    (∃ rest, bcf.Read (bcf.encodeIndex witnessIndex) witnessRegion =
      .ok (⟨0, bcf.minOr bgzf.LastAddress (bcf.nonMetaStarts witnessIndex.refs)⟩ ::
        rest)) ∧
    (witnessIndex.refs = [] →
      bcf.Read (bcf.encodeIndex witnessIndex) witnessRegion =
        .ok [⟨0, bgzf.LastAddress⟩]) :=
  C3_header_chunk witnessIndex witnessRegion (by decide)

/-- C7: with a non-empty candidate list, handle uses the first candidate that
opens successfully, its result depending only on that reader (later
candidates are never attempted); and when every candidate fails to open it
returns a storage error wrapping the last candidate's underlying error, for
every decode and merge function (the decoder is not invoked). -/
theorem C7_handle_candidates {α ρ : Type} (indexObjects : List α)
    (newReader : α → Except String ρ)
    (read : Option ρ → Except String (List bgzf.Chunk))
    (merge : List bgzf.Chunk → List bgzf.Chunk)
    (hne : indexObjects ≠ []) :
    (∀ i : Nat, ∀ hi : i < indexObjects.length, ∀ r : ρ,
      (∀ l ∈ indexObjects.take i, ∃ e, newReader l = .error e) →
      newReader (indexObjects.get ⟨i, hi⟩) = .ok r →
      api.handle indexObjects newReader read merge =
        (match read (some r) with
         | .error e => .error (.readErr e)
         | .ok chunks => .ok (merge chunks))) ∧
    (∀ e : String,
      (∀ l ∈ indexObjects, ∃ e2, newReader l = .error e2) →
      newReader (indexObjects.getLast hne) = .error e →
      ∀ (read2 : Option ρ → Except String (List bgzf.Chunk))
        (merge2 : List bgzf.Chunk → List bgzf.Chunk),
      api.handle indexObjects newReader read2 merge2 =
        .error (.storage "opening index" e)) := by
  constructor
  · intro i hi r hfail hok
    unfold api.handle
    rw [api.openLoop_first_success newReader indexObjects i hi r hfail hok (none, none)]
  · intro e hall hlast read2 merge2
    unfold api.handle
    rw [api.openLoop_all_fail newReader indexObjects hne e hall hlast (none, none)]

/-- C7 witness: with candidates [1, 2] where 1 fails to open and 2 opens,
handle decodes using candidate 2's reader. -/
theorem C7_handle_candidates_witness :
    api.handle [1, 2] witnessNewReader witnessRead id =
      (match witnessRead (some "r") with
       | .error e => .error (.readErr e)
       | .ok chunks => .ok (id chunks)) :=
  (C7_handle_candidates [1, 2] witnessNewReader witnessRead id (by decide)).1 1
    (by decide) "r"
    (fun l hl => ⟨"missing", by
      have hl1 : l = 1 := by simpa using hl
      rw [hl1]
      rfl⟩)
    (by rfl)

/-- C10: with an empty candidate list the open loop never runs, the recorded
error stays nil, so handle returns no storage-access error and instead
invokes the decode function on the uninitialized (nil) index stream. -/
theorem C10_handle_empty {α ρ : Type} (newReader : α → Except String ρ)
    (read : Option ρ → Except String (List bgzf.Chunk))
    (merge : List bgzf.Chunk → List bgzf.Chunk) :
    api.handle ([] : List α) newReader read merge =
      (match read none with
       | .error e => .error (.readErr e)
       | .ok chunks => .ok (merge chunks)) ∧
    api.isStorageErr (api.handle ([] : List α) newReader read merge) = false := by
  have h1 : api.handle ([] : List α) newReader read merge =
      (match read none with
       | .error e => .error (.readErr e)
       | .ok chunks => .ok (merge chunks)) := rfl
  refine ⟨h1, ?_⟩
  rw [h1]
  cases read none with
  | error e => rfl
  | ok chunks => rfl
